import Mathlib

/-!
# Verification of the `react-d3-tree` `Tree` component core

Shallow embedding of the tree layout and interaction-state engine of
`src/Tree/index.js` (the `Tree` React component): identity assignment,
collapse/expand state transitions, tree search, the one-time initial-depth
layout pass, and scale clamping.

In the JavaScript source, after `assignInternalProperties` runs, `children`
and `_children` alias the same array and collapse/expand mutate only the
`_collapsed` flag; traversal of descendants by the engine's own functions
always goes through `_children`.  We therefore model an internal node as an
inductive tree whose `children` field is the `_children` (full children)
structure, carrying the `_collapsed` flag and the `depth` field (which in JS
is `undefined` until a d3 layout pass assigns it, hence `Option Nat`).
In-place mutations become functions returning the updated tree.
-/

/-- An internal node of the derived tree: `id` (a uuid in JS, modelled as a
natural number), the `_collapsed` flag, the `depth` field assigned by the
layout pass (`none` models JS `undefined`), and `_children`, the full
children structure. -/
inductive TNode : Type where
  | node (id : Nat) (collapsed : Bool) (depth : Option Nat) (children : List TNode) : TNode

namespace TNode

/-- The node's `id` field. -/
def idOf : TNode → Nat
  | .node i _ _ _ => i

/-- The node's `_collapsed` flag. -/
def collapsedOf : TNode → Bool
  | .node _ c _ _ => c

/-- The node's `depth` field (`none` = JS `undefined`). -/
def depthOf : TNode → Option Nat
  | .node _ _ d _ => d

/-- The node's `_children` (full children) structure. -/
def childrenOf : TNode → List TNode
  | .node _ _ _ cs => cs

end TNode

mutual

/-- Embedding of `collapseNode` (src/Tree/index.js:215-222): sets `_collapsed = true` on the
node and recurses into every element of `_children`. -/
def collapseNode : TNode → TNode
  | .node i _ d cs => .node i true d (collapseForest cs)

/-- The `node._children.forEach(child => Tree.collapseNode(child))` loop of
`collapseNode`. -/
def collapseForest : List TNode → List TNode
  | [] => []
  | t :: ts => collapseNode t :: collapseForest ts

end

/-- Embedding of `expandNode` (src/Tree/index.js:232-234): sets `_collapsed = false` on the
node only. -/
def expandNode : TNode → TNode
  | .node i _ d cs => .node i false d cs

mutual

/-- Decidable check that a node and all of its descendants (via the full
children structure) carry `_collapsed = true`. -/
def allCollapsed : TNode → Bool
  | .node _ c _ cs => c && allCollapsedForest cs

/-- Check `allCollapsed` over a list of trees. -/
def allCollapsedForest : List TNode → Bool
  | [] => true
  | t :: ts => allCollapsed t && allCollapsedForest ts

end

/-- Navigate from a node to a descendant along a path of child indices
(indices into the `_children` lists). `[]` is the node itself. -/
def getNode : TNode → List Nat → Option TNode
  | t, [] => some t
  | .node _ _ _ cs, j :: p =>
    match cs[j]? with
    | some child => getNode child p
    | none => none

/-- A path of child indices addresses a *visible* node when every strict
ancestor along the path has `_collapsed = false`; this is exactly the set of
nodes the d3 layout visits, since its children accessor is
`d => (d._collapsed ? null : d._children)` (src/Tree/index.js:433). -/
def visiblePath : TNode → List Nat → Bool
  | _, [] => true
  | .node _ c _ cs, j :: p =>
    !c && (match cs[j]? with
           | some child => visiblePath child p
           | none => false)

mutual

/-- Embedding of an in-place mutation `f` applied to "the node with id `i`"
(as `handleNodeToggle` does after `findNodesById`): rewrites the topmost
node(s) carrying id `i` with `f`, leaving everything else untouched.  With
unique ids this is exactly the JS in-place mutation of the found node. -/
def modifyById (f : TNode → TNode) (i : Nat) : TNode → TNode
  | .node j c d cs =>
    if j == i then f (.node j c d cs) else .node j c d (modifyByIdForest f i cs)

/-- Apply `modifyById` over every tree of a forest. -/
def modifyByIdForest (f : TNode → TNode) (i : Nat) : List TNode → List TNode
  | [] => []
  | t :: ts => modifyById f i t :: modifyByIdForest f i ts

end

/-- A collapse/expand request addressed to the node with a given id, as issued
by `handleNodeToggle`. -/
inductive TreeOp : Type where
  | collapseAt (id : Nat) : TreeOp
  | expandAt (id : Nat) : TreeOp

/-- Apply a single collapse/expand request to the derived tree. -/
def applyOp : TreeOp → TNode → TNode
  | .collapseAt i, t => modifyById collapseNode i t
  | .expandAt i, t => modifyById expandNode i t

/-- Apply a finite sequence of collapse/expand requests, left to right. -/
def applyOps : List TreeOp → TNode → TNode
  | [], t => t
  | op :: ops, t => applyOps ops (applyOp op t)

/-- The collapse-flag-erased skeleton of a tree: ids, depth fields and the
`_children` structure (length, order and element identity), everything the
collapse/expand operations are required to leave alone. -/
inductive IdTree : Type where
  | node (id : Nat) (depth : Option Nat) (children : List IdTree) : IdTree

mutual

/-- Erase the `_collapsed` flags of a tree, keeping id, depth and the full
children structure. -/
def stripFlags : TNode → IdTree
  | .node i _ d cs => .node i d (stripFlagsForest cs)

/-- Apply `stripFlags` over a forest. -/
def stripFlagsForest : List TNode → List IdTree
  | [] => []
  | t :: ts => stripFlags t :: stripFlagsForest ts

end

mutual

/-- All nodes of a tree in pre-order, traversing the full `_children`
structure and ignoring `_collapsed` flags. -/
def allNodes : TNode → List TNode
  | .node i c d cs => .node i c d cs :: allNodesForest cs

/-- All nodes of a forest in pre-order, siblings left to right. -/
def allNodesForest : List TNode → List TNode
  | [] => []
  | t :: ts => allNodes t ++ allNodesForest ts

end

mutual

/-- Embedding of `findNodesById` (src/Tree/index.js:171-185): returns `hits` unchanged as
soon as it is non-empty; otherwise concatenates the current level's id
matches and walks each node's `_children` (when non-empty), threading the
accumulator. -/
def findNodesById (nodeId : Nat) (nodeSet : List TNode) (hits : List TNode) :
    List TNode :=
  if hits.length > 0 then hits
  else
    findNodesByIdEach nodeId nodeSet
      (hits ++ nodeSet.filter (fun n => n.idOf == nodeId))
termination_by 2 * sizeOf nodeSet + 1

/-- The `nodeSet.forEach(...)` loop of `findNodesById`, descending into each
node's `_children` when non-empty. -/
def findNodesByIdEach (nodeId : Nat) (nodeSet : List TNode) (hits : List TNode) :
    List TNode :=
  match nodeSet with
  | [] => hits
  | .node _ _ _ cs :: rest =>
    findNodesByIdEach nodeId rest
      (if cs.length > 0 then findNodesById nodeId cs hits else hits)
termination_by 2 * sizeOf nodeSet
decreasing_by
  · simp only [TNode.node.sizeOf_spec, List.cons.sizeOf_spec]
    omega
  · simp only [List.cons.sizeOf_spec]
    omega

end

mutual

/-- Embedding of `findNodesAtDepth` (src/Tree/index.js:195-205): concatenates the current
level's nodes whose stored `depth` field equals the requested one (JS `===`,
so `none == none` matches `undefined === undefined`), then walks each node's
`_children`; no short-circuit. -/
def findNodesAtDepth (depth : Option Nat) (nodeSet : List TNode)
    (accumulator : List TNode) : List TNode :=
  findNodesAtDepthEach depth nodeSet
    (accumulator ++ nodeSet.filter (fun n => n.depthOf == depth))
termination_by 2 * sizeOf nodeSet + 1

/-- The `nodeSet.forEach(...)` loop of `findNodesAtDepth`. -/
def findNodesAtDepthEach (depth : Option Nat) (nodeSet : List TNode)
    (accumulator : List TNode) : List TNode :=
  match nodeSet with
  | [] => accumulator
  | .node _ _ _ cs :: rest =>
    findNodesAtDepthEach depth rest
      (if cs.length > 0 then findNodesAtDepth depth cs accumulator else accumulator)
termination_by 2 * sizeOf nodeSet
decreasing_by
  · simp only [TNode.node.sizeOf_spec, List.cons.sizeOf_spec]
    omega
  · simp only [List.cons.sizeOf_spec]
    omega

end

mutual

/-- Specification-side description for the search claims: the nodes whose
root-to-node path length equals `d`, collected in pre-order (siblings left to
right) over the full `_children` structure; `l` is the path length of the
current node. -/
def atPathDepth (d l : Nat) : TNode → List TNode
  | .node i c dep cs =>
    (if l = d then [TNode.node i c dep cs] else []) ++ atPathDepthForest d (l + 1) cs

/-- Collect `atPathDepth` over a forest whose trees all sit at path length `l`. -/
def atPathDepthForest (d l : Nat) : List TNode → List TNode
  | [] => []
  | t :: ts => atPathDepth d l t ++ atPathDepthForest d l ts

end

/-- The matches `atPathDepthForest` contributes strictly below the roots of
a forest at path length `l`: the depth-`d` nodes of each root's subforest of
children, roots themselves excluded (used to describe the accumulator of the
`forEach` loop of `findNodesAtDepth`). -/
def atPathDepthChildren (d l : Nat) : List TNode → List TNode
  | [] => []
  | .node _ _ _ cs :: rest =>
    atPathDepthForest d (l + 1) cs ++ atPathDepthChildren d l rest

mutual

/-- Decidable check that every node's stored `depth` field equals its
root-to-node path length (`l` being the current node's path length), as is
the case after a layout pass has visited the whole tree. -/
def depthConsistent (l : Nat) : TNode → Bool
  | .node _ _ dep cs => (dep == some l) && depthConsistentForest (l + 1) cs

/-- Check `depthConsistent` over a forest at path length `l`. -/
def depthConsistentForest (l : Nat) : List TNode → Bool
  | [] => true
  | t :: ts => depthConsistent l t && depthConsistentForest l ts

end

/-- A raw input node as fed to `assignInternalProperties`: an optional
explicit `_collapsed` flag (`none` models an absent/`undefined` flag) and the
`children` list.  Fields irrelevant to the claims under verification (`name`,
`attributes`, pass-through extras) are omitted. -/
inductive RawNode : Type where
  | node (collapsed : Option Bool) (children : List RawNode) : RawNode

mutual

/-- The body of the `d.map(node => ...)` of `assignInternalProperties`
(src/Tree/index.js:146-157) on one node: assign a fresh id (uuid in JS,
modelled by threading a counter), default an undefined `_collapsed` to
`false`, and recurse into `children` when non-empty (which also sets
`_children = children`). -/
def assignNodeProperties (ctr : Nat) : RawNode → Nat × TNode
  | .node c cs =>
    if cs.length > 0 then
      match assignInternalProperties (ctr + 1) cs with
      | (ctr2, cs2) => (ctr2, .node ctr (c.getD false) none cs2)
    else (ctr + 1, .node ctr (c.getD false) none [])

/-- Embedding of `assignInternalProperties` (src/Tree/index.js:143-159) on an array of
roots (a single-object input is wrapped into a one-element array by the
source before this runs); returns the next fresh id together with the
internalized forest. -/
def assignInternalProperties (ctr : Nat) : List RawNode → Nat × List TNode
  | [] => (ctr, [])
  | d :: ds =>
    match assignNodeProperties ctr d with
    | (ctr2, t) =>
      match assignInternalProperties ctr2 ds with
      | (ctr3, ts) => (ctr3, t :: ts)

end

/-- The per-node collapse flags of a tree, for stating that identity
assignment maps `collapsed ?? false` over the whole input. -/
inductive BoolTree : Type where
  | node (b : Bool) (children : List BoolTree) : BoolTree

mutual

/-- Collapse flags of an internal tree. -/
def flagsOfTNode : TNode → BoolTree
  | .node _ c _ cs => .node c (flagsOfTNodeForest cs)

/-- Collapse flags of an internal forest. -/
def flagsOfTNodeForest : List TNode → List BoolTree
  | [] => []
  | t :: ts => flagsOfTNode t :: flagsOfTNodeForest ts

end

mutual

/-- Collapse flags a raw tree is expected to produce: `collapsed ?? false`
at every node. -/
def flagsOfRaw : RawNode → BoolTree
  | .node c cs => .node (c.getD false) (flagsOfRawForest cs)

/-- Apply `flagsOfRaw` over a forest. -/
def flagsOfRawForest : List RawNode → List BoolTree
  | [] => []
  | t :: ts => flagsOfRaw t :: flagsOfRawForest ts

end

mutual

/-- The node set computed by `tree.nodes(rootNode)` in `generateTree`
(src/Tree/index.js:436): the d3 layout visits the root and, whenever a node
is not collapsed, its `_children` (children accessor
`d => (d._collapsed ? null : d._children)`, src/Tree/index.js:433),
assigning each visited node its depth (`l` is the current node's depth).
Each entry records the visited node's `(id, depth, collapsed)`; the x/y
coordinates also computed by d3 play no role in the claims. -/
def d3Nodes (l : Nat) : TNode → List (Nat × Nat × Bool)
  | .node i c _ cs => (i, l, c) :: (if c then [] else d3NodesForest (l + 1) cs)

/-- Collect `d3Nodes` over the children of a visited, non-collapsed node. -/
def d3NodesForest (l : Nat) : List TNode → List (Nat × Nat × Bool)
  | [] => []
  | t :: ts => d3Nodes l t ++ d3NodesForest l ts

end

mutual

/-- Embedding of `setInitialTreeDepth` (src/Tree/index.js:87-91): for every node of the
node set just produced by the first layout pass (exactly the nodes
`visiblePath` reaches), set `_collapsed = (depth >= initialDepth)`, the
depth being the one that pass assigned.  Children of a node that was
collapsed in that pass were not visited and stay untouched.  `l` is the
current node's depth, `k` the `initialDepth` prop. -/
def setInitialTreeDepth (k l : Nat) : TNode → TNode
  | .node i c d cs =>
    .node i (decide (k ≤ l)) d (if c then cs else setInitialTreeDepthForest k (l + 1) cs)

/-- Apply `setInitialTreeDepth` over the children of a visited, non-collapsed
node. -/
def setInitialTreeDepthForest (k l : Nat) : List TNode → List TNode
  | [] => []
  | t :: ts => setInitialTreeDepth k l t :: setInitialTreeDepthForest k l ts

end

/-- Embedding of `generateTree` (src/Tree/index.js:417-456), restricted to what the claims
are about: computes the laid-out node set of `this.state.data[0]`; when
`useCollapseData === false`, `initialDepth !== undefined` and this is the
initial render, applies `setInitialTreeDepth` to that node set and runs the
layout once more.  Returns the final node set together with the (possibly
mutated) tree.  The d3 x/y coordinates, `depthFactor` override and the
derived `links` are position data with no bearing on the claims. -/
def generateTree (useCollapseData : Bool) (initialDepth : Option Nat)
    (initialRender : Bool) (root : TNode) : List (Nat × Nat × Bool) × TNode :=
  match useCollapseData, initialDepth, initialRender with
  | false, some k, true =>
    (d3Nodes 0 (setInitialTreeDepth k 0 root), setInitialTreeDepth k 0 root)
  | _, _, _ => (d3Nodes 0 root, root)

/-- The `scaleExtent` prop: `{min, max}` bounds for the zoom scale.  JS
numbers are modelled as rationals. -/
structure ScaleExtent : Type where
  lo : Rat
  hi : Rat

/-- Embedding of `calculateD3Geometry` (src/Tree/index.js:467-482): resolves the initial
geometry from the requested `zoom`, `scaleExtent` and `translate` props;
`zoom` above `scaleExtent.max` resolves to the max, below `scaleExtent.min`
to the min, otherwise to itself; `translate` is returned as given. -/
def calculateD3Geometry (zoom : Rat) (scaleExtent : ScaleExtent)
    (translate : Rat × Rat) : (Rat × Rat) × Rat :=
  let scale :=
    if zoom > scaleExtent.hi then scaleExtent.hi
    else if zoom < scaleExtent.lo then scaleExtent.lo
    else zoom
  (translate, scale)

/-- Embedding of `collapseNeighborNodes` (src/Tree/index.js:244-249): find all nodes whose
stored `depth` field equals the target's, drop the target itself (by id), and
collapse each of the remaining neighbors in place. -/
def collapseNeighborNodes (targetNode : TNode) (nodeSet : List TNode) :
    List TNode :=
  let neighbors :=
    (findNodesAtDepth targetNode.depthOf nodeSet []).filter
      (fun n => !(n.idOf == targetNode.idOf))
  neighbors.foldl (fun s nb => modifyByIdForest collapseNode nb.idOf s) nodeSet

/-- The per-toggle configuration read from props by `handleNodeToggle`. -/
structure ToggleConfig : Type where
  collapsible : Bool
  shouldCollapseNeighborNodes : Bool
  transitionDuration : Nat

/-- The component state relevant to toggling: the derived forest
(`this.state.data`), the time until which toggling is locked, and counters
for the observable effects of a commit.  In the source the lock is the
`isTransitioning` flag, set on commit and cleared by a
`setTimeout(..., transitionDuration + 10)`; in the single-threaded JS event
model the flag is `true` at time `t` exactly when `t` is before the pending
timeout's release time, which `lockUntil` records.  `commits` counts
`setState({data, ...})` tree commits and `notifications` the `onUpdate`
calls those commits trigger from `componentDidUpdate`. -/
structure ToggleState : Type where
  data : List TNode
  lockUntil : Nat
  commits : Nat
  notifications : Nat

/-- Embedding of `handleNodeToggle` (src/Tree/index.js:264-289) processed at time `now`:
locate the node by id on a clone of the state; when `collapsible` and not
locked, expand it if collapsed (also collapsing depth-neighbors when
`shouldCollapseNeighborNodes`) or collapse it otherwise, commit the new tree,
notify, and lock until `now + transitionDuration + 10`; otherwise the request
changes no state (only the user `onClick` callback runs).  `none` models the
`TypeError` the source throws when an unlocked toggle's id lookup comes back
empty (`matches[0]` is `undefined` and `targetNode._collapsed` is read). -/
def handleNodeToggle (cfg : ToggleConfig) (now : Nat) (nodeId : Nat)
    (s : ToggleState) : Option ToggleState :=
  let found := findNodesById nodeId s.data []
  if cfg.collapsible ∧ ¬ now < s.lockUntil then
    match found with
    | [] => none
    | targetNode :: _ =>
      let data2 :=
        if targetNode.collapsedOf then
          let d := modifyByIdForest expandNode targetNode.idOf s.data
          if cfg.shouldCollapseNeighborNodes then
            collapseNeighborNodes targetNode d
          else d
        else modifyByIdForest collapseNode targetNode.idOf s.data
      some
        { data := data2
          lockUntil := now + cfg.transitionDuration + 10
          commits := s.commits + 1
          notifications := s.notifications + 1 }
  else some s

/-! ## Induction principles and basic lemmas -/

set_option linter.unusedVariables false in
/-- Induction over a tree with the inductive hypothesis available for every
child (the bound `ht` is consumed by the termination proof). -/
theorem TNode.inductionOn {motive : TNode → Prop}
    (h : ∀ i c d cs, (∀ t, t ∈ cs → motive t) → motive (.node i c d cs)) :
    ∀ t, motive t
  | .node i c d cs => h i c d cs (fun t ht => TNode.inductionOn h t)
termination_by t => sizeOf t
decreasing_by
  have h1 := List.sizeOf_lt_of_mem ht
  simp only [TNode.node.sizeOf_spec]
  omega

/-- Induction over a forest, with inductive hypotheses for the head's
children and for the tail. -/
theorem forestInductionOn {motive : List TNode → Prop} (h0 : motive [])
    (h1 : ∀ i c d cs rest, motive cs → motive rest →
      motive (TNode.node i c d cs :: rest)) :
    ∀ ns, motive ns
  | [] => h0
  | .node i c d cs :: rest =>
    h1 i c d cs rest (forestInductionOn h0 h1 cs) (forestInductionOn h0 h1 rest)
termination_by ns => sizeOf ns
decreasing_by
  · simp only [TNode.node.sizeOf_spec, List.cons.sizeOf_spec]
    omega
  · simp only [List.cons.sizeOf_spec]
    omega

/-- Induction over a raw-input forest, with inductive hypotheses for the
head's children and for the tail. -/
theorem rawForestInductionOn {motive : List RawNode → Prop} (h0 : motive [])
    (h1 : ∀ c cs rest, motive cs → motive rest →
      motive (RawNode.node c cs :: rest)) :
    ∀ ds, motive ds
  | [] => h0
  | .node c cs :: rest =>
    h1 c cs rest (rawForestInductionOn h0 h1 cs) (rawForestInductionOn h0 h1 rest)
termination_by ds => sizeOf ds
decreasing_by
  · simp only [RawNode.node.sizeOf_spec, List.cons.sizeOf_spec]
    omega
  · simp only [List.cons.sizeOf_spec]
    omega

/-- The collapse-cascade loop is a `map`. -/
theorem collapseForest_eq_map : ∀ ts : List TNode,
    collapseForest ts = ts.map collapseNode := by
  intro ts
  induction ts with
  | nil => rfl
  | cons t ts ih => simp [collapseForest, ih]

/-- The initial-depth forcing loop is a `map`. -/
theorem setInitialTreeDepthForest_eq_map (k l : Nat) : ∀ ts : List TNode,
    setInitialTreeDepthForest k l ts = ts.map (setInitialTreeDepth k l) := by
  intro ts
  induction ts with
  | nil => rfl
  | cons t ts ih => simp [setInitialTreeDepthForest, ih]

/-- The by-id rewriting loop is a `map`. -/
theorem modifyByIdForest_eq_map (f : TNode → TNode) (i : Nat) : ∀ ts : List TNode,
    modifyByIdForest f i ts = ts.map (modifyById f i) := by
  intro ts
  induction ts with
  | nil => rfl
  | cons t ts ih => simp [modifyByIdForest, ih]

/-! ## C1: collapse cascade -/

/-- C1: after `collapseNode(n)`, the node and every descendant reachable
through the full `_children` structure carry `_collapsed = true`. -/
theorem collapseNode_allCollapsed : ∀ t : TNode,
    allCollapsed (collapseNode t) = true := by
  intro t
  induction t using TNode.inductionOn with
  | h i c d cs ih =>
    simp only [collapseNode, allCollapsed, Bool.true_and]
    induction cs with
    | nil => rfl
    | cons t ts iht =>
      simp only [collapseForest, allCollapsedForest, Bool.and_eq_true]
      exact ⟨ih t (by simp), iht (fun x hx => ih x (List.mem_cons_of_mem t hx))⟩

/-! ## C2: collapse/expand preserve the full-children structure -/

/-- Lemma: `collapseNode` changes no id, depth field or children structure. -/
theorem stripFlags_collapseNode : ∀ t : TNode,
    stripFlags (collapseNode t) = stripFlags t := by
  intro t
  induction t using TNode.inductionOn with
  | h i c d cs ih =>
    simp only [collapseNode, stripFlags, IdTree.node.injEq, true_and]
    induction cs with
    | nil => rfl
    | cons t ts iht =>
      simp only [collapseForest, stripFlagsForest, List.cons.injEq]
      exact ⟨ih t (by simp), iht (fun x hx => ih x (List.mem_cons_of_mem t hx))⟩

/-- Lemma: `expandNode` changes no id, depth field or children structure. -/
theorem stripFlags_expandNode : ∀ t : TNode,
    stripFlags (expandNode t) = stripFlags t := by
  intro t
  cases t with
  | node i c d cs => simp [expandNode, stripFlags]

/-- Rewriting the node with a given id by a structure-preserving function
preserves the structure of the whole tree. -/
theorem stripFlags_modifyById (f : TNode → TNode)
    (hf : ∀ u, stripFlags (f u) = stripFlags u) : ∀ (t : TNode) (i : Nat),
    stripFlags (modifyById f i t) = stripFlags t := by
  intro t
  induction t using TNode.inductionOn with
  | h j c d cs ih =>
    intro i
    simp only [modifyById]
    by_cases hj : (j == i) = true
    · simp [hj, hf]
    · simp only [hj, Bool.false_eq_true, if_false, stripFlags, IdTree.node.injEq,
        true_and]
      induction cs with
      | nil => rfl
      | cons t ts iht =>
        simp only [modifyByIdForest, stripFlagsForest, List.cons.injEq]
        exact ⟨ih t (by simp) i, iht (fun x hx => ih x (List.mem_cons_of_mem t hx))⟩

/-- C2: any finite sequence of collapse/expand requests, addressed to
arbitrary nodes of the tree, leaves every node's full `_children` structure
(length, order and element identity, as captured by the flag-erased
skeleton, which also includes ids and depth fields) unchanged; only
`_collapsed` flags are mutated. -/
theorem applyOps_stripFlags : ∀ (ops : List TreeOp) (t : TNode),
    stripFlags (applyOps ops t) = stripFlags t := by
  intro ops
  induction ops with
  | nil => intro t; rfl
  | cons op ops ih =>
    intro t
    have hop : stripFlags (applyOp op t) = stripFlags t := by
      cases op with
      | collapseAt i => exact stripFlags_modifyById collapseNode stripFlags_collapseNode t i
      | expandAt i => exact stripFlags_modifyById expandNode stripFlags_expandNode t i
    simp only [applyOps, ih, hop]

/-! ## C6: expand is non-recursive -/

/-- C6: `expandNode(n)` sets `n._collapsed = false` and changes nothing
else: id and depth field are kept, and every proper descendant (any node
reached through a non-empty child path) is exactly the one found before the
call, collapsed flag included. -/
theorem expandNode_frame : ∀ t : TNode,
    (expandNode t).collapsedOf = false ∧
    (expandNode t).idOf = t.idOf ∧
    (expandNode t).depthOf = t.depthOf ∧
    ∀ (j : Nat) (p : List Nat), getNode (expandNode t) (j :: p) = getNode t (j :: p) := by
  intro t
  cases t with
  | node i c d cs =>
    refine ⟨rfl, rfl, rfl, ?_⟩
    intro j p
    simp [expandNode, getNode]

/-! ## C7: initial scale clamping -/

/-- C7: with a well-formed `scaleExtent` (`min ≤ max`), the resolved initial
geometry clamps the requested zoom into `[min, max]` and passes the
translate through unchanged. -/
theorem calculateD3Geometry_spec (zoom : Rat) (ext : ScaleExtent)
    (translate : Rat × Rat) (h : ext.lo ≤ ext.hi) :
    calculateD3Geometry zoom ext translate
      = (translate, max ext.lo (min zoom ext.hi)) := by
  unfold calculateD3Geometry
  by_cases h1 : zoom > ext.hi
  · have hmin : min zoom ext.hi = ext.hi := min_eq_right (le_of_lt h1)
    have hmax : max ext.lo ext.hi = ext.hi := max_eq_right h
    simp [h1, hmin, hmax]
  · have h1' : zoom ≤ ext.hi := not_lt.mp h1
    have hmin : min zoom ext.hi = zoom := min_eq_left h1'
    by_cases h2 : zoom < ext.lo
    · have hmax : max ext.lo zoom = ext.lo := max_eq_left (le_of_lt h2)
      simp [h1, h2, hmin, hmax]
    · have hmax : max ext.lo zoom = zoom := max_eq_right (not_lt.mp h2)
      simp [h1, h2, hmin, hmax]

/-- Witness for C7, the spec's scenario: requested zoom `5` against extent
`{min: 0.1, max: 2}` resolves to scale `2`, translate passed through. -/
theorem calculateD3Geometry_spec_witness :
    (ScaleExtent.mk (1/10) 2).lo ≤ (ScaleExtent.mk (1/10) 2).hi ∧
    calculateD3Geometry 5 (ScaleExtent.mk (1/10) 2) (3, 4) = ((3, 4), 2) := by
  constructor
  · norm_num
  · rw [calculateD3Geometry_spec 5 (ScaleExtent.mk (1/10) 2) (3, 4) (by norm_num)]
    norm_num

/-! ## C8: identity assignment defaults the collapse flag -/

/-- C8: identity assignment gives every node the collapse flag
`collapsed ?? false`: an explicit flag on the raw node is preserved, an
absent one becomes `false` (shown for the whole forest at once, and for any
value of the id counter). -/
theorem assignInternalProperties_collapsed : ∀ (data : List RawNode) (ctr : Nat),
    flagsOfTNodeForest (assignInternalProperties ctr data).2 = flagsOfRawForest data := by
  intro data
  induction data using rawForestInductionOn with
  | h0 => intro ctr; rfl
  | h1 c cs rest ihcs ihrest =>
    intro ctr
    by_cases hcs : cs.length > 0
    · simp only [assignInternalProperties, assignNodeProperties, hcs, if_pos]
      simp only [flagsOfTNodeForest, flagsOfTNode, flagsOfRawForest, flagsOfRaw,
        List.cons.injEq, BoolTree.node.injEq, true_and]
      exact ⟨ihcs (ctr + 1), ihrest _⟩
    · have hnil : cs = [] := List.length_eq_zero.mp (Nat.eq_zero_of_not_pos hcs)
      subst hnil
      simp only [assignInternalProperties, assignNodeProperties, List.length_nil,
        gt_iff_lt, lt_self_iff_false, if_false]
      simp only [flagsOfTNodeForest, flagsOfTNode, flagsOfRawForest, flagsOfRaw,
        List.cons.injEq, BoolTree.node.injEq, true_and]
      exact ihrest _

/-! ## C3 and C10: the one-time initial-depth pass -/

/-- On a node the first layout pass visited (a `visiblePath`),
`setInitialTreeDepth` rewrites the collapse flag to
`depth >= initialDepth` — the depth being the path length from the root —
and keeps id, depth field and the number of children. -/
theorem setInitialTreeDepth_visible (k : Nat) : ∀ (p : List Nat) (t : TNode) (l : Nat)
    (n : TNode), visiblePath t p = true → getNode t p = some n →
    ∃ cs2 : List TNode,
      getNode (setInitialTreeDepth k l t) p
        = some (TNode.node n.idOf (decide (k ≤ l + p.length)) n.depthOf cs2) ∧
      cs2.length = n.childrenOf.length := by
  intro p
  induction p with
  | nil =>
    intro t l n _ hget
    cases t with
    | node i c d cs =>
      simp only [getNode, Option.some.injEq] at hget
      subst hget
      by_cases hc : c = true
      · refine ⟨cs, ?_, rfl⟩
        simp [setInitialTreeDepth, hc, getNode, TNode.idOf, TNode.depthOf]
      · have hc' : c = false := eq_false_of_ne_true hc
        subst hc'
        refine ⟨setInitialTreeDepthForest k (l + 1) cs, ?_, ?_⟩
        · simp [setInitialTreeDepth, getNode, TNode.idOf, TNode.depthOf]
        · simp [setInitialTreeDepthForest_eq_map, TNode.childrenOf]
  | cons j p2 ih =>
    intro t l n hvis hget
    cases t with
    | node i c d cs =>
      simp only [visiblePath, Bool.and_eq_true, Bool.not_eq_true'] at hvis
      obtain ⟨hc, hrest⟩ := hvis
      subst hc
      cases hj : cs[j]? with
      | none => rw [hj] at hrest; simp at hrest
      | some ch =>
        rw [hj] at hrest
        simp only [getNode] at hget
        rw [hj] at hget
        obtain ⟨cs2, h1, h2⟩ := ih ch (l + 1) n hrest hget
        refine ⟨cs2, ?_, h2⟩
        have harith : l + (j :: p2).length = l + 1 + p2.length := by
          simp [List.length_cons]
          omega
        rw [harith]
        simp only [setInitialTreeDepth, Bool.false_eq_true, if_false, getNode,
          setInitialTreeDepthForest_eq_map]
        rw [List.getElem?_map, hj]
        simpa using h1

/-- A node the first layout pass did not visit (a non-`visiblePath`) is left
exactly as it was by `setInitialTreeDepth`. -/
theorem setInitialTreeDepth_hidden (k : Nat) : ∀ (p : List Nat) (t : TNode) (l : Nat),
    visiblePath t p = false → getNode (setInitialTreeDepth k l t) p = getNode t p := by
  intro p
  induction p with
  | nil => intro t l h; simp [visiblePath] at h
  | cons j p2 ih =>
    intro t l h
    cases t with
    | node i c d cs =>
      by_cases hc : c = true
      · subst hc
        simp [setInitialTreeDepth, getNode]
      · have hc' : c = false := eq_false_of_ne_true hc
        subst hc'
        simp only [visiblePath, Bool.not_false, Bool.true_and] at h
        cases hj : cs[j]? with
        | none =>
          simp only [setInitialTreeDepth, Bool.false_eq_true, if_false, getNode,
            setInitialTreeDepthForest_eq_map]
          rw [List.getElem?_map, hj]
          simp
        | some ch =>
          rw [hj] at h
          simp only [setInitialTreeDepth, Bool.false_eq_true, if_false, getNode,
            setInitialTreeDepthForest_eq_map]
          rw [List.getElem?_map, hj]
          simp only [Option.map_some']
          exact ih ch (l + 1) h

/-- C10: the one-time initial-depth pass rewrites the collapse flag of every
node visited by the first layout pass to `depth >= initialDepth` — so every
visited node at depth strictly below `initialDepth` is forced to
`collapsed = false`, overriding any explicit flag supplied by the input
data — while every node the pass did not visit (hidden below a collapsed
node) is left exactly as it was. -/
theorem setInitialTreeDepth_spec (k : Nat) (root : TNode) :
    (∀ (p : List Nat) (n : TNode), visiblePath root p = true → getNode root p = some n →
      ∃ n2 : TNode, getNode (setInitialTreeDepth k 0 root) p = some n2 ∧
        n2.collapsedOf = decide (k ≤ p.length) ∧
        n2.idOf = n.idOf ∧ n2.depthOf = n.depthOf ∧
        n2.childrenOf.length = n.childrenOf.length) ∧
    (∀ p : List Nat, visiblePath root p = false →
      getNode (setInitialTreeDepth k 0 root) p = getNode root p) := by
  constructor
  · intro p n hv hg
    obtain ⟨cs2, h1, h2⟩ := setInitialTreeDepth_visible k p root 0 n hv hg
    refine ⟨_, h1, ?_, rfl, rfl, ?_⟩
    · simp [TNode.collapsedOf]
    · simpa [TNode.childrenOf] using h2
  · intro p h
    exact setInitialTreeDepth_hidden k p root 0 h

/-- Witness for C10 at a concrete input: the root of
`{collapsed: true, children: [{collapsed: true}]}` is visible to the first
layout pass at depth `0 < initialDepth = 1`, so its explicitly supplied
`collapsed = true` is overridden to `false`, while its hidden child keeps
its flag. -/
theorem setInitialTreeDepth_spec_witness :
    visiblePath (TNode.node 0 true none [TNode.node 1 true none []]) [] = true ∧
    getNode (TNode.node 0 true none [TNode.node 1 true none []]) []
      = some (TNode.node 0 true none [TNode.node 1 true none []]) ∧
    ∃ n2 : TNode,
      getNode (setInitialTreeDepth 1 0 (TNode.node 0 true none [TNode.node 1 true none []])) []
        = some n2 ∧
      n2.collapsedOf = decide (1 ≤ ([] : List Nat).length) ∧
      n2.idOf = (TNode.node 0 true none [TNode.node 1 true none []]).idOf ∧
      n2.depthOf = (TNode.node 0 true none [TNode.node 1 true none []]).depthOf ∧
      n2.childrenOf.length
        = (TNode.node 0 true none [TNode.node 1 true none []]).childrenOf.length :=
  ⟨rfl, rfl,
    (setInitialTreeDepth_spec 1 (TNode.node 0 true none [TNode.node 1 true none []])).1
      [] (TNode.node 0 true none [TNode.node 1 true none []]) rfl rfl⟩

/-- C3: when `useCollapseData` is false, `initialDepth` is set and this is
the very first layout pass after mount, every node visited by that pass
whose assigned depth is at least `initialDepth` ends up with
`collapsed = true`, the returned node set is the one recomputed exactly once
more from the forced tree, and on any non-initial pass the forcing never
happens (whatever `useCollapseData` and `initialDepth` are): the node set is
the plain layout of the unchanged tree. -/
theorem generateTree_initialDepth (k : Nat) (root : TNode) :
    (∀ (p : List Nat) (n : TNode), visiblePath root p = true → getNode root p = some n →
        k ≤ p.length →
      ∃ n2 : TNode, getNode (setInitialTreeDepth k 0 root) p = some n2 ∧
        n2.collapsedOf = true) ∧
    generateTree false (some k) true root
      = (d3Nodes 0 (setInitialTreeDepth k 0 root), setInitialTreeDepth k 0 root) ∧
    (∀ (useCollapseData : Bool) (initialDepth : Option Nat),
      generateTree useCollapseData initialDepth false root = (d3Nodes 0 root, root)) := by
  refine ⟨?_, rfl, ?_⟩
  · intro p n hv hg hk
    obtain ⟨cs2, h1, h2⟩ := setInitialTreeDepth_visible k p root 0 n hv hg
    refine ⟨_, h1, ?_⟩
    simp only [TNode.collapsedOf, decide_eq_true_eq]
    omega
  · intro ucd idep
    cases ucd <;> cases idep <;> rfl

/-- Witness for C3 at a concrete input: with `initialDepth = 1` on the tree
`A -> B`, the visible node `B` at depth `1 ≥ 1` is collapsed by the forcing
pass. -/
theorem generateTree_initialDepth_witness :
    visiblePath (TNode.node 0 false none [TNode.node 1 false none []]) [0] = true ∧
    getNode (TNode.node 0 false none [TNode.node 1 false none []]) [0]
      = some (TNode.node 1 false none []) ∧
    1 ≤ [0].length ∧
    ∃ n2 : TNode,
      getNode (setInitialTreeDepth 1 0 (TNode.node 0 false none [TNode.node 1 false none []])) [0]
        = some n2 ∧ n2.collapsedOf = true :=
  ⟨rfl, rfl, by decide,
    (generateTree_initialDepth 1 (TNode.node 0 false none [TNode.node 1 false none []])).1
      [0] (TNode.node 1 false none []) rfl rfl (by decide)⟩

/-! ## C5: find-all-at-depth -/

/-- Strictly above every node of a forest there are no depth-`d` matches:
collecting at a path length already beyond `d` yields nothing. -/
theorem atPathDepthForest_empty (d : Nat) : ∀ (ns : List TNode) (l : Nat), d < l →
    atPathDepthForest d l ns = [] := by
  intro ns
  induction ns using forestInductionOn with
  | h0 => intro l _; rfl
  | h1 i c dep cs rest ihcs ihrest =>
    intro l hl
    simp only [atPathDepthForest, atPathDepth]
    rw [if_neg (by omega), ihcs (l + 1) (by omega), ihrest l hl]
    rfl

/-- Collecting a forest's depth-`d` nodes at path length `d` returns exactly
its roots. -/
theorem atPathDepthForest_self (d : Nat) : ∀ ns : List TNode,
    atPathDepthForest d d ns = ns := by
  intro ns
  induction ns using forestInductionOn with
  | h0 => rfl
  | h1 i c dep cs rest ihcs ihrest =>
    simp only [atPathDepthForest, atPathDepth, if_pos rfl]
    rw [atPathDepthForest_empty d cs (d + 1) (by omega), ihrest]
    rfl

/-- Below-the-roots matches vanish when the roots already sit at depth `d`
or beyond. -/
theorem atPathDepthChildren_empty (d : Nat) : ∀ (ns : List TNode) (l : Nat), d ≤ l →
    atPathDepthChildren d l ns = [] := by
  intro ns
  induction ns with
  | nil => intro l _; rfl
  | cons n rest ih =>
    cases n with
    | node i c dep cs =>
      intro l hl
      simp only [atPathDepthChildren]
      rw [atPathDepthForest_empty d cs (l + 1) (by omega), ih l hl]
      rfl

/-- The pre-order collection at depth `d` splits into the roots (when they
sit at depth `d`) followed by the matches strictly below them. -/
theorem atPathDepthForest_decompose (d : Nat) : ∀ (ns : List TNode) (l : Nat),
    (if l = d then ns else []) ++ atPathDepthChildren d l ns
      = atPathDepthForest d l ns := by
  intro ns
  induction ns with
  | nil => intro l; simp [atPathDepthChildren, atPathDepthForest]
  | cons n rest ih =>
    cases n with
    | node i c dep cs =>
      intro l
      by_cases hl : l = d
      · rw [hl]
        simp only [if_pos rfl, atPathDepthChildren, atPathDepthForest, atPathDepth,
          if_true]
        rw [atPathDepthForest_empty d cs (d + 1) (by omega),
          atPathDepthChildren_empty d rest d (by omega), atPathDepthForest_self d rest]
        simp
      · have h2 := ih l
        rw [if_neg hl] at h2
        simp only [if_neg hl, atPathDepthChildren, atPathDepthForest, atPathDepth,
          if_neg hl, List.nil_append]
        simpa using h2

/-- Consistent depth fields at the roots of a forest. -/
theorem depthConsistentForest_roots (l : Nat) : ∀ ns : List TNode,
    depthConsistentForest l ns = true → ∀ n ∈ ns, n.depthOf = some l := by
  intro ns
  induction ns with
  | nil => intro _ n hn; simp at hn
  | cons x rest ih =>
    cases x with
    | node i c dep cs =>
      intro h n hn
      simp only [depthConsistentForest, depthConsistent, Bool.and_eq_true, beq_iff_eq]
        at h
      rcases List.mem_cons.mp hn with h1 | h1
      · subst h1; exact h.1.1
      · exact ih h.2 n h1

/-- Filtering a node list by the stored depth field, when the whole list
sits at depth `l`, keeps everything or nothing. -/
theorem filter_depthOf_of_consistent (d l : Nat) (ns : List TNode)
    (h : ∀ n ∈ ns, n.depthOf = some l) :
    ns.filter (fun n => n.depthOf == some d) = if l = d then ns else [] := by
  by_cases hl : l = d
  · subst hl
    rw [if_pos rfl]
    apply List.filter_eq_self.mpr
    intro a ha
    simp [h a ha]
  · rw [if_neg hl]
    apply List.filter_eq_nil_iff.mpr
    intro a ha
    simp only [h a ha, beq_iff_eq, Option.some.injEq]
    exact fun hc => hl hc

/-- Over a forest whose stored depth fields all equal the path lengths,
`findNodesAtDepth` appends to its accumulator exactly the depth-`d` nodes in
pre-order; its `forEach` loop appends exactly the matches strictly below the
roots. -/
theorem findNodesAtDepth_consistent (d : Nat) : ∀ ns : List TNode,
    ∀ (l : Nat), depthConsistentForest l ns = true →
      (∀ acc : List TNode,
        findNodesAtDepth (some d) ns acc = acc ++ atPathDepthForest d l ns) ∧
      (∀ acc : List TNode,
        findNodesAtDepthEach (some d) ns acc = acc ++ atPathDepthChildren d l ns) := by
  intro ns
  induction ns using forestInductionOn with
  | h0 =>
    intro l _
    constructor
    · intro acc
      simp [findNodesAtDepth, findNodesAtDepthEach, atPathDepthForest]
    · intro acc
      simp [findNodesAtDepthEach, atPathDepthChildren]
  | h1 i c dep cs rest ihcs ihrest =>
    intro l hcon
    simp only [depthConsistentForest, depthConsistent, Bool.and_eq_true, beq_iff_eq]
      at hcon
    obtain ⟨⟨hdep, hcs⟩, hrest⟩ := hcon
    have heach : ∀ acc : List TNode,
        findNodesAtDepthEach (some d) (TNode.node i c dep cs :: rest) acc
          = acc ++ atPathDepthChildren d l (TNode.node i c dep cs :: rest) := by
      intro acc
      simp only [findNodesAtDepthEach]
      have hacc : (if cs.length > 0 then findNodesAtDepth (some d) cs acc else acc)
          = acc ++ atPathDepthForest d (l + 1) cs := by
        by_cases hcs0 : cs.length > 0
        · rw [if_pos hcs0]
          exact (ihcs (l + 1) hcs).1 acc
        · have : cs = [] := List.length_eq_zero.mp (Nat.eq_zero_of_not_pos hcs0)
          subst this
          simp [atPathDepthForest]
      rw [hacc, (ihrest l hrest).2 (acc ++ atPathDepthForest d (l + 1) cs)]
      simp [atPathDepthChildren]
    constructor
    · intro acc
      simp only [findNodesAtDepth]
      have hroots : ∀ n ∈ TNode.node i c dep cs :: rest, n.depthOf = some l := by
        intro n hn
        rcases List.mem_cons.mp hn with h1 | h1
        · subst h1; exact hdep
        · exact depthConsistentForest_roots l rest hrest n h1
      rw [filter_depthOf_of_consistent d l _ hroots,
        heach (acc ++ if l = d then TNode.node i c dep cs :: rest else [])]
      rw [List.append_assoc, atPathDepthForest_decompose d _ l]
    · exact heach

/-- C5: over a tree whose stored depth fields match the root-to-node path
lengths (as the layout pass leaves them), `findNodesAtDepth(d, roots, [])`
returns exactly the nodes whose path length equals `d`, collected over the
full `_children` structure with no short-circuit, in pre-order with siblings
left to right. -/
theorem findNodesAtDepth_spec (d : Nat) (roots : List TNode)
    (hdep : depthConsistentForest 0 roots = true) :
    findNodesAtDepth (some d) roots [] = atPathDepthForest d 0 roots := by
  have h := (findNodesAtDepth_consistent d roots 0 hdep).1 []
  simpa using h

/-- Witness for C5 on the forest `A -> {B, C}` with consistent depth fields:
the depth-1 query returns exactly `[B, C]`. -/
theorem findNodesAtDepth_spec_witness :
    depthConsistentForest 0
      [TNode.node 0 false (some 0)
        [TNode.node 1 false (some 1) [], TNode.node 2 true (some 1) []]] = true ∧
    findNodesAtDepth (some 1)
      [TNode.node 0 false (some 0)
        [TNode.node 1 false (some 1) [], TNode.node 2 true (some 1) []]] []
      = atPathDepthForest 1 0
        [TNode.node 0 false (some 0)
          [TNode.node 1 false (some 1) [], TNode.node 2 true (some 1) []]] :=
  ⟨rfl,
    findNodesAtDepth_spec 1
      [TNode.node 0 false (some 0)
        [TNode.node 1 false (some 1) [], TNode.node 2 true (some 1) []]] rfl⟩

/-! ## C4: find-by-id -/

/-- Lemma: `findNodesById` returns a non-empty accumulator immediately, descending
into nothing. -/
theorem findNodesById_of_ne_nil (i : Nat) (ns hits : List TNode) (h : hits ≠ []) :
    findNodesById i ns hits = hits := by
  simp only [findNodesById]
  rw [if_pos (List.length_pos.mpr h)]

/-- The `forEach` loop of `findNodesById` leaves a non-empty accumulator
unchanged: every descent re-enters `findNodesById`, which returns it as
is. -/
theorem findNodesByIdEach_of_ne_nil (i : Nat) : ∀ (ns hits : List TNode), hits ≠ [] →
    findNodesByIdEach i ns hits = hits := by
  intro ns
  induction ns with
  | nil => intro hits h; simp [findNodesByIdEach]
  | cons n rest ih =>
    cases n with
    | node a b dd cs =>
      intro hits h
      simp only [findNodesByIdEach]
      have hacc : (if cs.length > 0 then findNodesById i cs hits else hits) = hits := by
        split
        · exact findNodesById_of_ne_nil i cs hits h
        · rfl
      rw [hacc]
      exact ih hits h

/-- A pre-order traversal is the node followed by its children's
traversal. -/
theorem allNodes_eq (t : TNode) : allNodes t = t :: allNodesForest t.childrenOf := by
  cases t with
  | node i c d cs => rfl

/-- Roots of a forest occur in its pre-order traversal. -/
theorem mem_allNodesForest_of_mem : ∀ (ns : List TNode) (n : TNode), n ∈ ns →
    n ∈ allNodesForest ns := by
  intro ns
  induction ns with
  | nil => intro n h; simp at h
  | cons r rest ih =>
    intro n h
    simp only [allNodesForest]
    rcases List.mem_cons.mp h with h1 | h1
    · subst h1
      refine List.mem_append_left _ ?_
      rw [allNodes_eq]
      exact List.mem_cons_self _ _
    · exact List.mem_append_right _ (ih n h1)

/-- Every node of a forest's pre-order traversal lives in the traversal of
one of its roots. -/
theorem mem_allNodesForest_cases : ∀ (ns : List TNode) (n : TNode),
    n ∈ allNodesForest ns → ∃ r ∈ ns, n ∈ allNodes r := by
  intro ns
  induction ns with
  | nil => intro n h; simp [allNodesForest] at h
  | cons r rest ih =>
    intro n h
    simp only [allNodesForest] at h
    rcases List.mem_append.mp h with h1 | h1
    · exact ⟨r, List.mem_cons_self _ _, h1⟩
    · obtain ⟨r2, hr2, hn⟩ := ih n h1
      exact ⟨r2, List.mem_cons_of_mem _ hr2, hn⟩

/-- A forest is a sublist of its own pre-order traversal. -/
theorem sublist_allNodesForest : ∀ ns : List TNode, ns.Sublist (allNodesForest ns) := by
  intro ns
  induction ns with
  | nil => simp [allNodesForest]
  | cons r rest ih =>
    cases r with
    | node i c d cs =>
      simp only [allNodesForest, allNodes, List.cons_append]
      exact List.Sublist.cons₂ _ (ih.trans (List.sublist_append_right _ _))

/-- In a node list with pairwise distinct ids, filtering by one id keeps at
most one node. -/
theorem filter_idOf_length_le_one (i : Nat) : ∀ l : List TNode,
    (l.map TNode.idOf).Nodup → (l.filter (fun n => n.idOf == i)).length ≤ 1 := by
  intro l
  induction l with
  | nil => intro _; simp
  | cons x rest ih =>
    intro h
    simp only [List.map_cons, List.nodup_cons] at h
    obtain ⟨hx, hrest⟩ := h
    by_cases hxi : (x.idOf == i) = true
    · have hfil : rest.filter (fun n => n.idOf == i) = [] := by
        apply List.filter_eq_nil_iff.mpr
        intro a ha hai
        apply hx
        have h1 : a.idOf = i := by simpa using hai
        have h2 : x.idOf = i := by simpa using hxi
        rw [h2, ← h1]
        exact List.mem_map_of_mem TNode.idOf ha
      simp [List.filter_cons, hxi, hfil]
    · simp only [List.filter_cons, hxi, Bool.false_eq_true, if_false]
      exact ih hrest

/-- Joint soundness, completeness and uniqueness-bound for `findNodesById`
and its `forEach` loop, proved by simultaneous induction over the forest:
members of the result come from the accumulator or bear the searched id;
the result is non-empty as soon as the accumulator is or some node of the
full traversal bears the id; and with pairwise distinct ids the result from
an at-most-one-element accumulator keeps at most one element. -/
theorem findNodesById_main : ∀ ns : List TNode,
    (∀ (i : Nat) (hits : List TNode) (n : TNode), n ∈ findNodesByIdEach i ns hits →
      n ∈ hits ∨ (n.idOf = i ∧ n ∈ allNodesForest ns)) ∧
    (∀ (i : Nat) (hits : List TNode) (n : TNode), n ∈ findNodesById i ns hits →
      n ∈ hits ∨ (n.idOf = i ∧ n ∈ allNodesForest ns)) ∧
    (∀ (i : Nat) (hits : List TNode),
      (hits ≠ [] ∨ ∃ r ∈ ns, ∃ n, n ∈ allNodesForest r.childrenOf ∧ n.idOf = i) →
      findNodesByIdEach i ns hits ≠ []) ∧
    (∀ (i : Nat) (hits : List TNode),
      (hits ≠ [] ∨ ∃ n, n ∈ allNodesForest ns ∧ n.idOf = i) →
      findNodesById i ns hits ≠ []) ∧
    (∀ (i : Nat) (acc : List TNode), ((allNodesForest ns).map TNode.idOf).Nodup →
      acc.length ≤ 1 → (findNodesByIdEach i ns acc).length ≤ 1) ∧
    (∀ i : Nat, ((allNodesForest ns).map TNode.idOf).Nodup →
      (findNodesById i ns []).length ≤ 1) := by
  intro ns
  induction ns using forestInductionOn with
  | h0 =>
    have hfind : ∀ (i : Nat) (hits : List TNode), findNodesById i [] hits = hits := by
      intro i hits
      by_cases h : hits = []
      · subst h
        simp [findNodesById, findNodesByIdEach]
      · exact findNodesById_of_ne_nil i [] hits h
    refine ⟨?_, ?_, ?_, ?_, ?_, ?_⟩
    · intro i hits n hn
      simp only [findNodesByIdEach] at hn
      exact Or.inl hn
    · intro i hits n hn
      rw [hfind] at hn
      exact Or.inl hn
    · intro i hits hyp
      rcases hyp with h1 | ⟨r, hr, -⟩
      · simpa [findNodesByIdEach] using h1
      · simp at hr
    · intro i hits hyp
      rw [hfind]
      rcases hyp with h1 | ⟨n, hn, -⟩
      · exact h1
      · simp [allNodesForest] at hn
    · intro i acc _ hlen
      simpa [findNodesByIdEach] using hlen
    · intro i _
      rw [hfind]
      simp
  | h1 i0 c0 d0 cs rest ihcs ihrest =>
    obtain ⟨ihcsB, ihcsA, ihcsD, ihcsC, ihcsF, ihcsE⟩ := ihcs
    obtain ⟨ihrestB, ihrestA, ihrestD, ihrestC, ihrestF, ihrestE⟩ := ihrest
    have hAF : allNodesForest (TNode.node i0 c0 d0 cs :: rest)
        = TNode.node i0 c0 d0 cs :: (allNodesForest cs ++ allNodesForest rest) := by
      simp [allNodesForest, allNodes]
    have hB : ∀ (i : Nat) (hits : List TNode) (n : TNode),
        n ∈ findNodesByIdEach i (TNode.node i0 c0 d0 cs :: rest) hits →
        n ∈ hits ∨ (n.idOf = i ∧ n ∈ allNodesForest (TNode.node i0 c0 d0 cs :: rest)) := by
      intro i hits n hn
      simp only [findNodesByIdEach] at hn
      rcases ihrestB i _ n hn with h1 | h1
      · by_cases hg : cs.length > 0
        · rw [if_pos hg] at h1
          rcases ihcsA i hits n h1 with h2 | h2
          · exact Or.inl h2
          · refine Or.inr ⟨h2.1, ?_⟩
            rw [hAF]
            exact List.mem_cons_of_mem _ (List.mem_append_left _ h2.2)
        · rw [if_neg hg] at h1
          exact Or.inl h1
      · refine Or.inr ⟨h1.1, ?_⟩
        rw [hAF]
        exact List.mem_cons_of_mem _ (List.mem_append_right _ h1.2)
    have hA : ∀ (i : Nat) (hits : List TNode) (n : TNode),
        n ∈ findNodesById i (TNode.node i0 c0 d0 cs :: rest) hits →
        n ∈ hits ∨ (n.idOf = i ∧ n ∈ allNodesForest (TNode.node i0 c0 d0 cs :: rest)) := by
      intro i hits n hn
      simp only [findNodesById] at hn
      by_cases h0 : hits.length > 0
      · rw [if_pos h0] at hn
        exact Or.inl hn
      · rw [if_neg h0] at hn
        rcases hB i _ n hn with h1 | h1
        · rcases List.mem_append.mp h1 with h2 | h2
          · exact Or.inl h2
          · have h3 := List.mem_filter.mp h2
            exact Or.inr ⟨by simpa using h3.2, mem_allNodesForest_of_mem _ n h3.1⟩
        · exact Or.inr h1
    have hD : ∀ (i : Nat) (hits : List TNode),
        (hits ≠ [] ∨ ∃ r ∈ TNode.node i0 c0 d0 cs :: rest, ∃ n,
          n ∈ allNodesForest r.childrenOf ∧ n.idOf = i) →
        findNodesByIdEach i (TNode.node i0 c0 d0 cs :: rest) hits ≠ [] := by
      intro i hits hyp
      simp only [findNodesByIdEach]
      by_cases hacc : (if cs.length > 0 then findNodesById i cs hits else hits) = []
      · have hhits : hits = [] := by
          by_cases hg : cs.length > 0
          · rw [if_pos hg] at hacc
            by_contra hne
            rw [findNodesById_of_ne_nil i cs hits hne] at hacc
            exact hne hacc
          · rwa [if_neg hg] at hacc
        rcases hyp with h1 | ⟨r, hr, n, hn, hni⟩
        · exact absurd hhits h1
        · rcases List.mem_cons.mp hr with h2 | h2
          · rw [h2] at hn
            simp only [TNode.childrenOf] at hn
            have hcs0 : cs.length > 0 := by
              rcases cs with - | ⟨x, xs⟩
              · simp [allNodesForest] at hn
              · simp
            rw [if_pos hcs0] at hacc
            exact absurd hacc (ihcsC i hits (Or.inr ⟨n, hn, hni⟩))
          · exact ihrestD i _ (Or.inr ⟨r, h2, n, hn, hni⟩)
      · exact ihrestD i _ (Or.inl hacc)
    have hC : ∀ (i : Nat) (hits : List TNode),
        (hits ≠ [] ∨ ∃ n, n ∈ allNodesForest (TNode.node i0 c0 d0 cs :: rest) ∧
          n.idOf = i) →
        findNodesById i (TNode.node i0 c0 d0 cs :: rest) hits ≠ [] := by
      intro i hits hyp
      by_cases h0 : hits = []
      · subst h0
        have hunf : findNodesById i (TNode.node i0 c0 d0 cs :: rest) []
            = findNodesByIdEach i (TNode.node i0 c0 d0 cs :: rest)
              ((TNode.node i0 c0 d0 cs :: rest).filter (fun n => n.idOf == i)) := by
          simp [findNodesById]
        rcases hyp with h1 | ⟨n, hn, hni⟩
        · exact absurd rfl h1
        · rw [hAF] at hn
          rcases List.mem_cons.mp hn with h2 | h2
          · have hm : n ∈ (TNode.node i0 c0 d0 cs :: rest).filter
                (fun x => x.idOf == i) := by
              refine List.mem_filter.mpr ⟨?_, by simp [hni]⟩
              rw [h2]
              exact List.mem_cons_self _ _
            have hne := List.ne_nil_of_mem hm
            rw [hunf, findNodesByIdEach_of_ne_nil i _ _ hne]
            exact hne
          · rcases List.mem_append.mp h2 with h3 | h3
            · rw [hunf]
              refine hD i _ (Or.inr ⟨TNode.node i0 c0 d0 cs, List.mem_cons_self _ _,
                n, ?_, hni⟩)
              simpa [TNode.childrenOf] using h3
            · obtain ⟨r, hr, hnr⟩ := mem_allNodesForest_cases rest n h3
              rw [allNodes_eq] at hnr
              rcases List.mem_cons.mp hnr with h4 | h4
              · have hm : n ∈ (TNode.node i0 c0 d0 cs :: rest).filter
                    (fun x => x.idOf == i) := by
                  refine List.mem_filter.mpr ⟨?_, by simp [hni]⟩
                  refine List.mem_cons_of_mem _ ?_
                  rw [h4]
                  exact hr
                have hne := List.ne_nil_of_mem hm
                rw [hunf, findNodesByIdEach_of_ne_nil i _ _ hne]
                exact hne
              · rw [hunf]
                exact hD i _ (Or.inr ⟨r, List.mem_cons_of_mem _ hr, n, h4, hni⟩)
      · rw [findNodesById_of_ne_nil i _ hits h0]
        exact h0
    have hF : ∀ (i : Nat) (acc : List TNode),
        ((allNodesForest (TNode.node i0 c0 d0 cs :: rest)).map TNode.idOf).Nodup →
        acc.length ≤ 1 →
        (findNodesByIdEach i (TNode.node i0 c0 d0 cs :: rest) acc).length ≤ 1 := by
      intro i acc hnd hlen
      have hnd2 := hnd
      rw [hAF] at hnd2
      simp only [List.map_cons, List.nodup_cons, List.map_append,
        List.nodup_append] at hnd2
      obtain ⟨-, hndcs, hndrest, -⟩ := hnd2
      simp only [findNodesByIdEach]
      by_cases hacc : acc = []
      · subst hacc
        have h1 : (if cs.length > 0 then findNodesById i cs [] else
            ([] : List TNode)).length ≤ 1 := by
          by_cases hg : cs.length > 0
          · rw [if_pos hg]
            exact ihcsE i hndcs
          · rw [if_neg hg]
            simp
        exact ihrestF i _ hndrest h1
      · have heq : (if cs.length > 0 then findNodesById i cs acc else acc) = acc := by
          by_cases hg : cs.length > 0
          · rw [if_pos hg]
            exact findNodesById_of_ne_nil i cs acc hacc
          · rw [if_neg hg]
        rw [heq, findNodesByIdEach_of_ne_nil i rest acc hacc]
        exact hlen
    have hE : ∀ i : Nat,
        ((allNodesForest (TNode.node i0 c0 d0 cs :: rest)).map TNode.idOf).Nodup →
        (findNodesById i (TNode.node i0 c0 d0 cs :: rest) []).length ≤ 1 := by
      intro i hnd
      have hroots : ((TNode.node i0 c0 d0 cs :: rest).map TNode.idOf).Nodup :=
        ((sublist_allNodesForest _).map TNode.idOf).nodup hnd
      have hunf : findNodesById i (TNode.node i0 c0 d0 cs :: rest) []
          = findNodesByIdEach i (TNode.node i0 c0 d0 cs :: rest)
            ((TNode.node i0 c0 d0 cs :: rest).filter (fun n => n.idOf == i)) := by
        simp [findNodesById]
      rw [hunf]
      have hms := filter_idOf_length_le_one i _ hroots
      by_cases hne : (TNode.node i0 c0 d0 cs :: rest).filter (fun n => n.idOf == i) = []
      · rw [hne]
        exact hF i [] hnd (by simp)
      · rw [findNodesByIdEach_of_ne_nil i _ _ hne]
        exact hms
    exact ⟨hB, hA, hD, hC, hF, hE⟩

/-- C4: `findNodesById(id, roots, [])` searches depth-first through the full
`_children` structure — so a node hidden under collapsed ancestors is still
found — returns a non-empty accumulator untouched (no further descent once a
match exists), and under pairwise-distinct ids returns at most one node,
every returned node bearing the searched id and belonging to the tree; it is
non-empty exactly when some node of the full traversal bears the id. -/
theorem findNodesById_spec (nodeId : Nat) (roots : List TNode)
    (huniq : ((allNodesForest roots).map TNode.idOf).Nodup) :
    (∀ hits : List TNode, hits ≠ [] → findNodesById nodeId roots hits = hits) ∧
    (findNodesById nodeId roots []).length ≤ 1 ∧
    (∀ n : TNode, n ∈ findNodesById nodeId roots [] →
      n.idOf = nodeId ∧ n ∈ allNodesForest roots) ∧
    ((∃ n, n ∈ allNodesForest roots ∧ n.idOf = nodeId) →
      findNodesById nodeId roots [] ≠ []) := by
  obtain ⟨-, hA, -, hC, -, hE⟩ := findNodesById_main roots
  refine ⟨fun hits h => findNodesById_of_ne_nil nodeId roots hits h,
    hE nodeId huniq, ?_, fun h => hC nodeId [] (Or.inr h)⟩
  intro n hn
  rcases hA nodeId [] n hn with h1 | h1
  · simp at h1
  · exact h1

/-- Witness for C4 on the tree `5 -> 7` whose root is collapsed (so node `7`
is hidden from the layout but must still be findable): the ids are pairwise
distinct and the search contract applies. -/
theorem findNodesById_spec_witness :
    ((allNodesForest [TNode.node 5 true none [TNode.node 7 true none []]]).map
      TNode.idOf).Nodup ∧
    ((∀ hits : List TNode, hits ≠ [] →
      findNodesById 7 [TNode.node 5 true none [TNode.node 7 true none []]] hits = hits) ∧
    (findNodesById 7 [TNode.node 5 true none [TNode.node 7 true none []]] []).length ≤ 1 ∧
    (∀ n : TNode, n ∈ findNodesById 7 [TNode.node 5 true none [TNode.node 7 true none []]] [] →
      n.idOf = 7 ∧ n ∈ allNodesForest [TNode.node 5 true none [TNode.node 7 true none []]]) ∧
    ((∃ n, n ∈ allNodesForest [TNode.node 5 true none [TNode.node 7 true none []]] ∧
        n.idOf = 7) →
      findNodesById 7 [TNode.node 5 true none [TNode.node 7 true none []]] [] ≠ [])) :=
  ⟨by decide,
    findNodesById_spec 7 [TNode.node 5 true none [TNode.node 7 true none []]] (by decide)⟩

/-! ## C9: the toggle lock -/

/-- C9: a toggle request processed while unlocked commits exactly once
(one tree commit, one update notification) and opens a lock window of
`transitionDuration + 10`; any toggle request arriving while that window is
still active is dropped, not queued: it leaves the entire state — tree,
counters and lock — unchanged, so the pair produces exactly one commit and
one notification. -/
theorem handleNodeToggle_lock (cfg : ToggleConfig) (s : ToggleState) (t1 id1 : Nat)
    (hcol : cfg.collapsible = true) (hunlock : s.lockUntil ≤ t1)
    (hfound : findNodesById id1 s.data [] ≠ []) :
    ∃ s1 : ToggleState, handleNodeToggle cfg t1 id1 s = some s1 ∧
      s1.commits = s.commits + 1 ∧ s1.notifications = s.notifications + 1 ∧
      ∀ (t2 id2 : Nat), t2 < t1 + cfg.transitionDuration + 10 →
        handleNodeToggle cfg t2 id2 s1 = some s1 := by
  cases hf : findNodesById id1 s.data [] with
  | nil => exact absurd hf hfound
  | cons tn tl =>
    have h1 : ∃ D : List TNode, handleNodeToggle cfg t1 id1 s = some
        ⟨D, t1 + cfg.transitionDuration + 10, s.commits + 1, s.notifications + 1⟩ := by
      simp only [handleNodeToggle, hf]
      rw [if_pos ⟨hcol, Nat.not_lt.mpr hunlock⟩]
      exact ⟨_, rfl⟩
    obtain ⟨D, h1⟩ := h1
    refine ⟨_, h1, rfl, rfl, ?_⟩
    intro t2 id2 h2
    have hlock : ¬ (cfg.collapsible = true ∧
        ¬ t2 < (⟨D, t1 + cfg.transitionDuration + 10, s.commits + 1,
          s.notifications + 1⟩ : ToggleState).lockUntil) := by
      intro hcond
      exact hcond.2 h2
    simp only [handleNodeToggle]
    rw [if_neg hlock]

/-- Witness for C9: a single-node tree, `transitionDuration = 500`; the
first toggle at time `0` commits and a second request any time before
`510` is dropped with no state change. -/
theorem handleNodeToggle_lock_witness :
    (ToggleConfig.mk true false 500).collapsible = true ∧
    (ToggleState.mk [TNode.node 1 false none []] 0 0 0).lockUntil ≤ 0 ∧
    findNodesById 1 (ToggleState.mk [TNode.node 1 false none []] 0 0 0).data [] ≠ [] ∧
    (∃ s1 : ToggleState,
      handleNodeToggle (ToggleConfig.mk true false 500) 0 1
        (ToggleState.mk [TNode.node 1 false none []] 0 0 0) = some s1 ∧
      s1.commits = (ToggleState.mk [TNode.node 1 false none []] 0 0 0).commits + 1 ∧
      s1.notifications
        = (ToggleState.mk [TNode.node 1 false none []] 0 0 0).notifications + 1 ∧
      ∀ (t2 id2 : Nat), t2 < 0 + (ToggleConfig.mk true false 500).transitionDuration + 10 →
        handleNodeToggle (ToggleConfig.mk true false 500) t2 id2 s1 = some s1) :=
  ⟨rfl, by decide, by simp [findNodesById, findNodesByIdEach, TNode.idOf],
    handleNodeToggle_lock (ToggleConfig.mk true false 500)
      (ToggleState.mk [TNode.node 1 false none []] 0 0 0) 0 1 rfl (by decide)
      (by simp [findNodesById, findNodesByIdEach, TNode.idOf])⟩
